import Mathlib

/-!
Shallow embedding of the aisdi-mapy associative containers
(`TreeMap.h` — the ordered, binary-search-tree map — and `HashMap.h` —
the fixed 11-bucket chained hash map), instantiated at
`KeyType = ValueType = Nat`, with `std::hash` on integral keys modelled
as the identity (so a key `k` lands in bucket `k % 11`).

Pointers become an inductive tree / lists of buckets; the `size` member
is kept as an explicit counter in the state (it is maintained separately
from the structure in the source, and can disagree with it).  Throwing
`std::out_of_range` becomes `Except Err`: the two distinguishable
signals are the "Map does not contain key" message (`Err.keyNotFound`)
and the "Iterator out of range" / "Index out of range" messages
(`Err.iteratorOutOfRange`).
-/

set_option maxHeartbeats 1000000

/-- The two distinguishable error signals of the library. -/
inductive Err
  | keyNotFound
  | iteratorOutOfRange
deriving DecidableEq

/-- A `TreeNode` pointer: either null (`leaf`) or a node with the two
child pointers and its key/value pair.  Parent pointers are recovered by
the iterator zipper (`Step`/`Zip`) below. -/
inductive BST
  | leaf
  | node (left : BST) (key : Nat) (val : Nat) (right : BST)
deriving DecidableEq

/-- `TreeMap::findNode`: descend from the root, left when
`node->key() > key`, right otherwise, stopping on equality or null;
returns the stored value when found. -/
def findT (k : Nat) : BST → Option Nat
  | .leaf => none
  | .node l key v r =>
    if key = k then some v
    else if k < key then findT k l
    else findT k r

/-- The net effect on the tree of `TreeMap::operator[](k) = v`: descend
as in `findNode`; if the key is present assign `v` to its value, else
create a fresh node at the null slot reached.  The boolean records
whether a node was created (`++size` in the source). -/
def insUpd (k v : Nat) : BST → BST × Bool
  | .leaf => (.node .leaf k v .leaf, true)
  | .node l key val r =>
    if key = k then (.node l key v r, false)
    else if k < key then
      let p := insUpd k v l
      (.node p.1 key val r, p.2)
    else
      let p := insUpd k v r
      (.node l key val p.1, p.2)

/-- `TreeMap::operator[]` by itself (no assignment through the returned
reference): returns the rewritten tree, the value the returned reference
reads (default-constructed `0` on a fresh insert), and whether a node
was created. -/
def opIndexT (k : Nat) : BST → BST × Nat × Bool
  | .leaf => (.node .leaf k 0 .leaf, 0, true)
  | .node l key val r =>
    if key = k then (.node l key val r, val, false)
    else if k < key then
      let p := opIndexT k l
      (.node p.1 key val r, p.2.1, p.2.2)
    else
      let p := opIndexT k r
      (.node l key val p.1, p.2.1, p.2.2)

/-- `TreeMap::remove(key)` = `remove(find(key))` on the tree: when the
search fails the end iterator is removed, which throws
"Iterator out of range"; otherwise the found node is unlinked and the
subtree that replaces it is its left child when the right child is null,
and its right child otherwise — for a node with two children this is
exactly the source's behavior of promoting the right child and
discarding the left subtree. -/
def removeT (k : Nat) : BST → Except Err BST
  | .leaf => .error .iteratorOutOfRange
  | .node l key val r =>
    if key = k then
      .ok (if r = .leaf then l else r)
    else if k < key then
      match removeT k l with
      | .error e => .error e
      | .ok l2 => .ok (.node l2 key val r)
    else
      match removeT k r with
      | .error e => .error e
      | .ok r2 => .ok (.node l key val r2)

/-- In-order contents of a tree (left subtree, node, right subtree). -/
def inorder : BST → List (Nat × Nat)
  | .leaf => []
  | .node l key val r => inorder l ++ (key, val) :: inorder r

/-- The `TreeMap` object state: the root pointer and the `size` counter
member (maintained independently of the tree structure). -/
structure TreeMapS where
  root : BST
  size : Nat
deriving DecidableEq

/-- `m[k] = v` (the `operator[]`-then-assign idiom used by `fill` and
the initializer-list constructor), with the `++size` on creation. -/
def TreeMapS.insertPair (m : TreeMapS) (p : Nat × Nat) : TreeMapS :=
  let r := insUpd p.1 p.2 m.root
  ⟨r.1, if r.2 then m.size + 1 else m.size⟩

/-- `TreeMap::operator[]` at the object level: post-state plus the value
read through the returned reference. -/
def TreeMapS.index (m : TreeMapS) (k : Nat) : TreeMapS × Nat :=
  let r := opIndexT k m.root
  (⟨r.1, if r.2.2 then m.size + 1 else m.size⟩, r.2.1)

/-- A `TreeMap` built by applying `operator[](k) = v` for each listed
pair in order, starting from the default-constructed empty map. -/
def buildT (ps : List (Nat × Nat)) : TreeMapS :=
  ps.foldl TreeMapS.insertPair ⟨.leaf, 0⟩

/-- `TreeMap::valueOf(key)`, i.e. `(*find(key)).second`: dereferencing
the end iterator returned by a failed `find` throws
"Iterator out of range". -/
def tValueOf (m : TreeMapS) (k : Nat) : Except Err Nat :=
  match findT k m.root with
  | none => .error .iteratorOutOfRange
  | some v => .ok v

/-- `TreeMap::remove(key)` at the object level: on success `--size`. -/
def tRemoveKey (m : TreeMapS) (k : Nat) : Except Err TreeMapS :=
  match removeT k m.root with
  | .error e => .error e
  | .ok t => .ok ⟨t, m.size - 1⟩

/-- `TreeMap::TreeMap(TreeMap&&)`: the destination takes `other.root`
and `other.size`; the source's root is nulled but — as in the source —
its `size` member is left untouched.  Result: (destination, source
after the move). -/
def tMoveCtor (src : TreeMapS) : TreeMapS × TreeMapS :=
  (⟨src.root, src.size⟩, ⟨.leaf, src.size⟩)

/-- One step of the iterator's parent chain, seen from the current
node: `upL k v r` says the current node is the left child of a parent
with key `k`, value `v` and right subtree `r`; `upR` mirrors it. -/
inductive Step
  | upL (key val : Nat) (right : BST)
  | upR (key val : Nat) (left : BST)
deriving DecidableEq

/-- A `ConstIterator` positioned at a real node: the node's fields plus
the chain of parents up to the root. -/
structure Zip where
  left : BST
  key : Nat
  val : Nat
  right : BST
  path : List Step
deriving DecidableEq

/-- Descend to the leftmost node of the subtree `node l k v r`,
recording the parents passed on the way (the `while (leftChild)` loops
of `minElement` and `operator++`). -/
def descendLeft : BST → Nat → Nat → BST → List Step → Zip
  | .leaf, k, v, r, p => ⟨.leaf, k, v, r, p⟩
  | .node ll lk lv lr, k, v, r, p => descendLeft ll lk lv lr (.upL k v r :: p)

/-- `TreeMap::begin()`: the iterator at `minElement()`, or the end
iterator (`none`) when the root is null. -/
def beginZ : BST → Option Zip
  | .leaf => none
  | .node l k v r => some (descendLeft l k v r [])

/-- The ascending loop of `operator++`: climb while the current node is
its parent's right child, then step to the parent; reaching the root
with no parent yields the end iterator. -/
def climb : BST → List Step → Option Zip
  | _, [] => none
  | t, .upR k v l :: p => climb (.node l k v t) p
  | t, .upL k v r :: p => some ⟨t, k, v, r, p⟩

/-- `TreeMap::ConstIterator::operator++` on an iterator at a real node:
if there is a right child, its leftmost node; otherwise climb. -/
def succZ (z : Zip) : Option Zip :=
  match z.right with
  | .node rl rk rv rr =>
    some (descendLeft rl rk rv rr (.upR z.key z.val z.left :: z.path))
  | .leaf => climb (.node z.left z.key z.val .leaf) z.path

/-- Collect at most `n` elements by repeated `operator++` from a given
iterator (the `for (auto &v : map)` loop; the fuel is the element count,
which the loop never exceeds). -/
def iterFrom : Nat → Option Zip → List (Nat × Nat)
  | 0, _ => []
  | _ + 1, none => []
  | n + 1, some z => (z.key, z.val) :: iterFrom n (succZ z)

/-- The full forward iteration of a `TreeMap`, `begin()` to `end()`. -/
def iterateMap (m : TreeMapS) : List (Nat × Nat) :=
  iterFrom (inorder m.root).length (beginZ m.root)

/-- The loop body of `TreeMap::operator==`: for each pair of `other`
(in iteration order) compare `this->valueOf(pair.first)` — which throws
"Iterator out of range" when the key is absent — against `pair.second`,
returning `false` on the first mismatch. -/
def tEqualsAux (t : BST) : List (Nat × Nat) → Except Err Bool
  | [] => .ok true
  | p :: rest =>
    match findT p.1 t with
    | none => .error .iteratorOutOfRange
    | some v => if v ≠ p.2 then .ok false else tEqualsAux t rest

/-- `TreeMap::operator==`: sizes first, then the `valueOf` loop over
`other`'s elements. -/
def tEquals (m1 m2 : TreeMapS) : Except Err Bool :=
  if m1.size ≠ m2.size then .ok false
  else tEqualsAux m1.root (iterateMap m2)

/-- `TreeMap::operator=(const TreeMap&)`: the `this == &other` guard,
then `clear()` (root null, size 0) and `fill(other)` (re-insert every
pair of `other` in iteration order). -/
def tCopyAssign (self : Bool) (dst src : TreeMapS) : TreeMapS :=
  if self then dst
  else (iterateMap src).foldl TreeMapS.insertPair ⟨.leaf, 0⟩

/-- `TreeMap::operator=(TreeMap&&)`: the self guard, then `clear()` and
the pointer steal; as in the move constructor the source's `size`
member is not reset.  Result: (destination, source after the move). -/
def tMoveAssign (self : Bool) (dst src : TreeMapS) : TreeMapS × TreeMapS :=
  if self then (dst, src)
  else (⟨src.root, src.size⟩, ⟨.leaf, src.size⟩)

/-- Proof-side view of a path: the elements that forward iteration will
still visit once the focused subtree is exhausted. -/
def pathRest : List Step → List (Nat × Nat)
  | [] => []
  | .upL k v r :: p => (k, v) :: (inorder r ++ pathRest p)
  | .upR _ _ _ :: p => pathRest p

/-- Proof-side view of an iterator: the current element and everything
forward iteration will visit after it. -/
def remainingZ (z : Zip) : List (Nat × Nat) :=
  (z.key, z.val) :: (inorder z.right ++ pathRest z.path)

/-- All keys of a tree satisfy `p`. -/
def allKeys (p : Nat → Prop) : BST → Prop
  | .leaf => True
  | .node l k _ r => allKeys p l ∧ p k ∧ allKeys p r

/-- The binary-search-tree invariant of `TreeMap`. -/
def ordered : BST → Prop
  | .leaf => True
  | .node l k _ r =>
    allKeys (fun x => x < k) l ∧ allKeys (fun x => k < x) r ∧ ordered l ∧ ordered r

/-- The default-constructed bucket array: `MAP_SIZE = 11` empty
chains. -/
def emptyBuckets : List (List (Nat × Nat)) := List.replicate 11 []

/-- Read bucket `i` of the array. -/
def getB (bs : List (List (Nat × Nat))) (i : Nat) : List (Nat × Nat) :=
  bs.getD i []

/-- `HashMap::findInBucket`: `std::find_if` for the first entry of the
chain whose key matches. -/
def bucketFind (bucket : List (Nat × Nat)) (k : Nat) : Option (Nat × Nat) :=
  bucket.find? (fun q => q.1 == k)

/-- Assign a new value through the reference returned by `operator[]`
for a key already present: the first matching entry keeps its place and
key, only its value changes. -/
def setValue : List (Nat × Nat) → Nat → Nat → List (Nat × Nat)
  | [], _, _ => []
  | (k0, v0) :: rest, k, v =>
    if k0 == k then (k0, v) :: rest else (k0, v0) :: setValue rest k v

/-- `bucket->erase(found)`: drop the first entry with the given key. -/
def removeFirst : List (Nat × Nat) → Nat → List (Nat × Nat)
  | [], _ => []
  | (k0, v0) :: rest, k =>
    if k0 == k then rest else (k0, v0) :: removeFirst rest k

/-- The `HashMap` object state: the bucket array (always 11 buckets for
a map produced by the constructors) and the `size` counter member. -/
structure HashMapS where
  buckets : List (List (Nat × Nat))
  size : Nat
deriving DecidableEq

/-- `valueOf`-style lookup: scan the bucket `hash(key) % 11` for the
key and return the stored value. -/
def hFindVal (m : HashMapS) (k : Nat) : Option Nat :=
  (bucketFind (getB m.buckets (k % 11)) k).map (fun q => q.2)

/-- `(*this)[k] = v` on a `HashMap`: select the bucket, scan it; append
`(k, v)` (emplace of a default pair, then assignment through the
returned reference) and `++size` when absent; otherwise overwrite the
found entry's value in place. -/
def hInsertPair (m : HashMapS) (p : Nat × Nat) : HashMapS :=
  let b := p.1 % 11
  let bucket := getB m.buckets b
  match bucketFind bucket p.1 with
  | none => ⟨m.buckets.set b (bucket ++ [p]), m.size + 1⟩
  | some _ => ⟨m.buckets.set b (setValue bucket p.1 p.2), m.size⟩

/-- `HashMap::operator[]` by itself: post-state plus the value read
through the returned reference (default `0` on a fresh insert). -/
def hIndex (m : HashMapS) (k : Nat) : HashMapS × Nat :=
  let b := k % 11
  let bucket := getB m.buckets b
  match bucketFind bucket k with
  | none => (⟨m.buckets.set b (bucket ++ [(k, 0)]), m.size + 1⟩, 0)
  | some q => (m, q.2)

/-- A `HashMap` built by applying `(*this)[k] = v` for each listed pair
in order, starting from the default-constructed map. -/
def buildH (ps : List (Nat × Nat)) : HashMapS :=
  ps.foldl hInsertPair ⟨emptyBuckets, 0⟩

/-- `HashMap::valueOf` via `findOrThrow`: throws
"Map does not contain key" when the bucket scan fails. -/
def hValueOf (m : HashMapS) (k : Nat) : Except Err Nat :=
  match hFindVal m k with
  | none => .error .keyNotFound
  | some v => .ok v

/-- `HashMap::remove(key)`: throws "Map does not contain key" when the
bucket scan fails, otherwise erases the entry and `--size`. -/
def hRemoveKey (m : HashMapS) (k : Nat) : Except Err HashMapS :=
  let b := k % 11
  let bucket := getB m.buckets b
  match bucketFind bucket k with
  | none => .error .keyNotFound
  | some _ => .ok ⟨m.buckets.set b (removeFirst bucket k), m.size - 1⟩

/-- `HashMap::operator==`: equal sizes, then element-wise equality of
the whole bucket array (`this->buckets == other.buckets`). -/
def hEq (m1 m2 : HashMapS) : Bool :=
  if m1.size ≠ m2.size then false
  else decide (m1.buckets = m2.buckets)

/-- Forward iteration of a `HashMap`, `begin()` to `end()`: the chains
in bucket-index order (empty buckets are skipped by `next()`, which
contributes nothing to the sequence). -/
def hIterate (m : HashMapS) : List (Nat × Nat) := m.buckets.flatten

/-- `HashMap::HashMap(HashMap&&)`: the destination takes the moved
bucket array and the size; the source's chains are left empty by the
element-wise `std::list` move, but — as in the source — its `size`
member is not reset.  Result: (destination, source after the move). -/
def hMoveCtor (src : HashMapS) : HashMapS × HashMapS :=
  (⟨src.buckets, src.size⟩, ⟨emptyBuckets, src.size⟩)

/-- `HashMap::operator=(const HashMap&)`: the `this == &other` guard,
then `size = 0` and `fill(other.begin(), other.end())` — the bucket
array is NOT cleared first, exactly as in the source. -/
def hCopyAssign (self : Bool) (dst src : HashMapS) : HashMapS :=
  if self then dst
  else (hIterate src).foldl hInsertPair ⟨dst.buckets, 0⟩

/-- `HashMap::operator=(HashMap&&)`: the self guard, then the size copy
and bucket-array move; the source's `size` member is not reset. -/
def hMoveAssign (self : Bool) (dst src : HashMapS) : HashMapS × HashMapS :=
  if self then (dst, src)
  else (⟨src.buckets, src.size⟩, ⟨emptyBuckets, src.size⟩)

/-- A `HashMap::ConstIterator` position: the current bucket index and
the offset of the pointed-to entry inside that bucket (the `std::list`
iterator).  The end iterator is `⟨10, length of bucket 10⟩`. -/
structure HIter where
  bIdx : Nat
  pos : Nat
deriving DecidableEq

/-- The `next()` helper: advance to the next bucket's begin while the
current position is its bucket's end and the current bucket is not the
last one.  The loop runs at most 10 times; fuel 11 is ample. -/
def hNormAux (bs : List (List (Nat × Nat))) : Nat → HIter → HIter
  | 0, it => it
  | fuel + 1, it =>
    if it.pos = (getB bs it.bIdx).length ∧ it.bIdx ≠ 10 then
      hNormAux bs fuel ⟨it.bIdx + 1, 0⟩
    else it

/-- `next()` as called by the iterator constructor and `operator++`. -/
def hNorm (bs : List (List (Nat × Nat))) (it : HIter) : HIter :=
  hNormAux bs 11 it

/-- `HashMap::begin()`: bucket 0's begin, normalized by `next()`. -/
def hBegin (m : HashMapS) : HIter := hNorm m.buckets ⟨0, 0⟩

/-- `HashMap::end()`: the last bucket's end. -/
def hEnd (m : HashMapS) : HIter := ⟨10, (getB m.buckets 10).length⟩

/-- `ConstIterator::isEnd()`: the position equals the last bucket's
end. -/
def hIsEnd (m : HashMapS) (it : HIter) : Bool :=
  it.bIdx == 10 && it.pos == (getB m.buckets 10).length

/-- `ConstIterator::operator++`: "Index out of range" at the end
iterator, otherwise step within the bucket and renormalize. -/
def hIncr (m : HashMapS) (it : HIter) : Except Err HIter :=
  if hIsEnd m it then .error .iteratorOutOfRange
  else .ok (hNorm m.buckets ⟨it.bIdx, it.pos + 1⟩)

/-- The backward bucket walk of `operator--`: step to the previous
bucket while the current one is empty and not the first. -/
def hDecWalk (bs : List (List (Nat × Nat))) : Nat → Nat
  | 0 => 0
  | b + 1 => if (getB bs (b + 1)).isEmpty then hDecWalk bs b else b + 1

/-- `ConstIterator::operator--`: when the position is its bucket's
begin, walk back over empty buckets; throw "Iterator out of range" only
if the bucket reached is still empty, otherwise jump to that bucket's
last entry.  Otherwise just step back inside the bucket. -/
def hDecr (m : HashMapS) (it : HIter) : Except Err HIter :=
  if it.pos = 0 then
    let b := hDecWalk m.buckets it.bIdx
    if (getB m.buckets b).isEmpty then .error .iteratorOutOfRange
    else .ok ⟨b, (getB m.buckets b).length - 1⟩
  else .ok ⟨it.bIdx, it.pos - 1⟩

theorem remainingZ_descendLeft (l : BST) (k v : Nat) (r : BST) (p : List Step) :
    remainingZ (descendLeft l k v r p) = inorder (.node l k v r) ++ pathRest p := by
  induction l generalizing k v r p with
  | leaf => simp [descendLeft, remainingZ, inorder]
  | node ll lk lv lr ihl ihr =>
    rw [descendLeft, ihl]
    simp [inorder, pathRest]

theorem climb_spec (p : List Step) (t : BST) :
    (climb t p = none → pathRest p = []) ∧
    (∀ z, climb t p = some z → remainingZ z = pathRest p) := by
  induction p generalizing t with
  | nil => simp [climb, pathRest]
  | cons s p ih =>
    cases s with
    | upL k v r =>
      constructor
      · intro h; simp [climb] at h
      · intro z hz
        simp only [climb, Option.some.injEq] at hz
        subst hz
        simp [remainingZ, pathRest]
    | upR k v l =>
      constructor
      · intro h
        exact (ih (.node l k v t)).1 (by simpa [climb] using h)
      · intro z hz
        exact (ih (.node l k v t)).2 z (by simpa [climb] using hz)

theorem remainingZ_succZ (z : Zip) :
    (succZ z = none → remainingZ z = [(z.key, z.val)]) ∧
    (∀ z2, succZ z = some z2 → remainingZ z = (z.key, z.val) :: remainingZ z2) := by
  obtain ⟨l, k, v, r, p⟩ := z
  cases r with
  | leaf =>
    constructor
    · intro h
      have := (climb_spec p (.node l k v .leaf)).1 (by simpa [succZ] using h)
      simp [remainingZ, inorder, this]
    · intro z2 hz
      have := (climb_spec p (.node l k v .leaf)).2 z2 (by simpa [succZ] using hz)
      rw [this]
      simp [remainingZ, inorder]
  | node rl rk rv rr =>
    constructor
    · intro h; simp [succZ] at h
    · intro z2 hz
      simp only [succZ, Option.some.injEq] at hz
      subst hz
      rw [remainingZ_descendLeft]
      simp [remainingZ, inorder, pathRest]

theorem iterFrom_none (n : Nat) : iterFrom n none = [] := by
  cases n <;> rfl

theorem iterFrom_remainingZ (n : Nat) :
    ∀ z : Zip, (remainingZ z).length = n → iterFrom n (some z) = remainingZ z := by
  induction n with
  | zero =>
    intro z h
    simp [remainingZ] at h
  | succ n ih =>
    intro z h
    rw [iterFrom]
    cases hs : succZ z with
    | none =>
      have h2 := (remainingZ_succZ z).1 hs
      rw [h2] at h ⊢
      simp at h
      subst h
      simp [iterFrom_none]
    | some z2 =>
      have h2 := (remainingZ_succZ z).2 z2 hs
      rw [h2] at h ⊢
      simp at h
      rw [ih z2 h]

/-- Forward iteration of a `TreeMap`, `begin()` to `end()`, visits
exactly the in-order contents of the tree. -/
theorem iterateMap_eq_inorder (m : TreeMapS) : iterateMap m = inorder m.root := by
  unfold iterateMap
  cases hr : m.root with
  | leaf => simp [beginZ, inorder, iterFrom]
  | node l k v r =>
    rw [beginZ]
    have hd := remainingZ_descendLeft l k v r []
    rw [pathRest, List.append_nil] at hd
    rw [iterFrom_remainingZ _ _ (by rw [hd]), hd]

theorem findT_insUpd (k q v : Nat) (t : BST) :
    findT q (insUpd k v t).1 = if q = k then some v else findT q t := by
  induction t with
  | leaf =>
    simp only [insUpd, findT]
    by_cases hq : q = k
    · simp [hq]
    · simp [hq, Ne.symm hq]
  | node l key val r ihl ihr =>
    rcases Nat.lt_trichotomy k key with hlt | heq | hgt
    · have hkk : ¬ key = k := by omega
      simp only [insUpd, if_neg hkk, if_pos hlt, findT]
      by_cases hq : key = q
      · rw [if_neg (show ¬ q = k by omega), if_pos hq, if_pos hq]
      · rw [if_neg hq, if_neg hq]
        by_cases hql : q < key
        · rw [if_pos hql, if_pos hql, ihl]
        · rw [if_neg hql, if_neg hql, if_neg (show ¬ q = k by omega)]
    · subst heq
      simp only [insUpd, if_pos rfl, findT]
      by_cases hq : q = k
      · simp [hq]
      · simp [hq, Ne.symm hq]
    · have hkk : ¬ key = k := by omega
      have hnl : ¬ k < key := by omega
      simp only [insUpd, if_neg hkk, if_neg hnl, findT]
      by_cases hq : key = q
      · rw [if_neg (show ¬ q = k by omega), if_pos hq, if_pos hq]
      · rw [if_neg hq, if_neg hq]
        by_cases hql : q < key
        · rw [if_pos hql, if_pos hql, if_neg (show ¬ q = k by omega)]
        · rw [if_neg hql, if_neg hql, ihr]

theorem insUpd_snd (k v : Nat) (t : BST) :
    (insUpd k v t).2 = (findT k t).isNone := by
  induction t with
  | leaf => rfl
  | node l key val r ihl ihr =>
    by_cases h : key = k
    · simp [insUpd, findT, h]
    · by_cases h2 : k < key <;> simp [insUpd, findT, h, h2, ihl, ihr]

theorem inorder_insUpd_perm (k v : Nat) (t : BST) (h : findT k t = none) :
    (inorder (insUpd k v t).1).Perm ((k, v) :: inorder t) := by
  induction t with
  | leaf => simp [insUpd, inorder]
  | node l key val r ihl ihr =>
    by_cases hk : key = k
    · simp [findT, hk] at h
    · by_cases hlt : k < key
      · simp only [findT, if_neg hk, if_pos hlt] at h
        simp only [insUpd, if_neg hk, if_pos hlt, inorder]
        exact ((ihl h).append_right _)
      · simp only [findT, if_neg hk, if_neg hlt] at h
        simp only [insUpd, if_neg hk, if_neg hlt, inorder]
        have h1 : ((key, val) :: inorder (insUpd k v r).1).Perm
            ((k, v) :: (key, val) :: inorder r) :=
          (List.Perm.cons _ (ihr h)).trans (List.Perm.swap _ _ _)
        exact (List.Perm.append_left (inorder l) h1).trans List.perm_middle

theorem findT_foldl_not_mem (ps : List (Nat × Nat)) (m : TreeMapS) (k : Nat)
    (h : k ∉ ps.map Prod.fst) :
    findT k (ps.foldl TreeMapS.insertPair m).root = findT k m.root := by
  induction ps generalizing m with
  | nil => rfl
  | cons p ps ih =>
    simp only [List.map_cons, List.mem_cons, not_or] at h
    rw [List.foldl_cons, ih _ h.2]
    show findT k (insUpd p.1 p.2 m.root).1 = _
    rw [findT_insUpd, if_neg h.1]

theorem findT_foldl_mem (ps : List (Nat × Nat)) (m : TreeMapS) (k v : Nat)
    (hnd : (ps.map Prod.fst).Nodup) (hmem : (k, v) ∈ ps) :
    findT k (ps.foldl TreeMapS.insertPair m).root = some v := by
  induction ps generalizing m with
  | nil => cases hmem
  | cons p ps ih =>
    simp only [List.map_cons, List.nodup_cons] at hnd
    rcases List.mem_cons.mp hmem with heq | hmem2
    · rw [List.foldl_cons, findT_foldl_not_mem ps _ k (by rw [← heq] at hnd; exact hnd.1)]
      show findT k (insUpd p.1 p.2 m.root).1 = some v
      rw [findT_insUpd, if_pos (by rw [← heq])]
      rw [← heq]
    · exact ih _ hnd.2 hmem2

theorem size_foldl (ps : List (Nat × Nat)) (m : TreeMapS)
    (hnd : (ps.map Prod.fst).Nodup)
    (hfresh : ∀ x ∈ ps.map Prod.fst, findT x m.root = none) :
    (ps.foldl TreeMapS.insertPair m).size = m.size + ps.length := by
  induction ps generalizing m with
  | nil => rfl
  | cons p ps ih =>
    simp only [List.map_cons, List.nodup_cons] at hnd
    rw [List.foldl_cons]
    have hfr : findT p.1 m.root = none := hfresh p.1 (by simp)
    have hstep : (TreeMapS.insertPair m p).size = m.size + 1 := by
      simp [TreeMapS.insertPair, insUpd_snd, hfr]
    have hfresh2 : ∀ x ∈ ps.map Prod.fst, findT x (TreeMapS.insertPair m p).root = none := by
      intro x hx
      show findT x (insUpd p.1 p.2 m.root).1 = none
      rw [findT_insUpd, if_neg (by rintro rfl; exact hnd.1 hx)]
      exact hfresh x (by simp [hx])
    rw [ih _ hnd.2 hfresh2, hstep]
    simp [List.length_cons]
    omega

theorem inorder_foldl_perm (ps : List (Nat × Nat)) (m : TreeMapS)
    (hnd : (ps.map Prod.fst).Nodup)
    (hfresh : ∀ x ∈ ps.map Prod.fst, findT x m.root = none) :
    (inorder (ps.foldl TreeMapS.insertPair m).root).Perm (ps ++ inorder m.root) := by
  induction ps generalizing m with
  | nil => simp
  | cons p ps ih =>
    simp only [List.map_cons, List.nodup_cons] at hnd
    rw [List.foldl_cons]
    have hfr : findT p.1 m.root = none := hfresh p.1 (by simp)
    have hfresh2 : ∀ x ∈ ps.map Prod.fst, findT x (TreeMapS.insertPair m p).root = none := by
      intro x hx
      show findT x (insUpd p.1 p.2 m.root).1 = none
      rw [findT_insUpd, if_neg (by rintro rfl; exact hnd.1 hx)]
      exact hfresh x (by simp [hx])
    refine (ih _ hnd.2 hfresh2).trans ?_
    have hins : (inorder (TreeMapS.insertPair m p).root).Perm (p :: inorder m.root) := by
      show (inorder (insUpd p.1 p.2 m.root).1).Perm _
      exact inorder_insUpd_perm p.1 p.2 m.root hfr
    refine (List.Perm.append_left ps hins).trans ?_
    exact List.perm_middle

theorem tEqualsAux_ok (t : BST) (L : List (Nat × Nat))
    (h : ∀ p ∈ L, findT p.1 t = some p.2) : tEqualsAux t L = .ok true := by
  induction L with
  | nil => rfl
  | cons p L ih =>
    have hp := h p (by simp)
    simp only [tEqualsAux, hp]
    rw [if_neg (by simp)]
    exact ih (fun q hq => h q (by simp [hq]))

/-- Two `TreeMap`s built from the same pairs (distinct keys) in any two
orders compare equal under `TreeMap::operator==`. -/
theorem tEquals_perm (ps qs : List (Nat × Nat))
    (hnd : (ps.map Prod.fst).Nodup) (hperm : ps.Perm qs) :
    tEquals (buildT ps) (buildT qs) = .ok true := by
  have hndq : (qs.map Prod.fst).Nodup := (hperm.map Prod.fst).nodup_iff.mp hnd
  have hfreshp : ∀ x ∈ ps.map Prod.fst, findT x (BST.leaf) = none := fun x _ => rfl
  have hfreshq : ∀ x ∈ qs.map Prod.fst, findT x (BST.leaf) = none := fun x _ => rfl
  have hs1 : (buildT ps).size = ps.length := by
    simpa [buildT] using size_foldl ps ⟨.leaf, 0⟩ hnd hfreshp
  have hs2 : (buildT qs).size = qs.length := by
    simpa [buildT] using size_foldl qs ⟨.leaf, 0⟩ hndq hfreshq
  unfold tEquals
  rw [if_neg (by rw [hs1, hs2, hperm.length_eq]; simp)]
  apply tEqualsAux_ok
  intro p hp
  rw [iterateMap_eq_inorder] at hp
  have hq : p ∈ qs := by
    have := (inorder_foldl_perm qs ⟨.leaf, 0⟩ hndq hfreshq).mem_iff.mp hp
    simpa [inorder] using this
  have hps : p ∈ ps := hperm.mem_iff.mpr hq
  exact findT_foldl_mem ps ⟨.leaf, 0⟩ p.1 p.2 hnd hps

theorem allKeys_insUpd (p : Nat → Prop) (k v : Nat) (t : BST)
    (ht : allKeys p t) (hk : p k) : allKeys p (insUpd k v t).1 := by
  induction t with
  | leaf => exact ⟨trivial, hk, trivial⟩
  | node l key val r ihl ihr =>
    obtain ⟨h1, h2, h3⟩ := ht
    by_cases hkey : key = k
    · simp only [insUpd, if_pos hkey]
      exact ⟨h1, h2, h3⟩
    · by_cases hlt : k < key
      · simp only [insUpd, if_neg hkey, if_pos hlt]
        exact ⟨ihl h1, h2, h3⟩
      · simp only [insUpd, if_neg hkey, if_neg hlt]
        exact ⟨h1, h2, ihr h3⟩

theorem ordered_insUpd (k v : Nat) (t : BST) (ht : ordered t) :
    ordered (insUpd k v t).1 := by
  induction t with
  | leaf => exact ⟨trivial, trivial, trivial, trivial⟩
  | node l key val r ihl ihr =>
    obtain ⟨h1, h2, h3, h4⟩ := ht
    by_cases hkey : key = k
    · simp only [insUpd, if_pos hkey]
      exact ⟨h1, h2, h3, h4⟩
    · by_cases hlt : k < key
      · simp only [insUpd, if_neg hkey, if_pos hlt]
        exact ⟨allKeys_insUpd _ k v l h1 hlt, h2, ihl h3, h4⟩
      · simp only [insUpd, if_neg hkey, if_neg hlt]
        exact ⟨h1, allKeys_insUpd _ k v r h2 (by omega), h3, ihr h4⟩

theorem ordered_foldl (ps : List (Nat × Nat)) (m : TreeMapS)
    (h : ordered m.root) : ordered ((ps.foldl TreeMapS.insertPair m).root) := by
  induction ps generalizing m with
  | nil => exact h
  | cons p ps ih =>
    rw [List.foldl_cons]
    exact ih _ (ordered_insUpd p.1 p.2 m.root h)

theorem allKeys_mem (p : Nat → Prop) (t : BST) :
    allKeys p t ↔ ∀ q ∈ inorder t, p q.1 := by
  induction t with
  | leaf => simp [allKeys, inorder]
  | node l key val r ihl ihr =>
    simp only [allKeys, inorder, List.mem_append, List.mem_cons, ihl, ihr]
    constructor
    · rintro ⟨h1, h2, h3⟩ q (hq | rfl | hq)
      · exact h1 q hq
      · exact h2
      · exact h3 q hq
    · intro h
      exact ⟨fun q hq => h q (Or.inl hq), h (key, val) (Or.inr (Or.inl rfl)),
        fun q hq => h q (Or.inr (Or.inr hq))⟩

theorem pairwise_inorder (t : BST) (h : ordered t) :
    ((inorder t).map Prod.fst).Pairwise (· < ·) := by
  induction t with
  | leaf => simp [inorder]
  | node l key val r ihl ihr =>
    obtain ⟨h1, h2, h3, h4⟩ := h
    rw [allKeys_mem] at h1 h2
    simp only [inorder, List.map_append, List.map_cons]
    rw [List.pairwise_append]
    refine ⟨ihl h3, ?_, ?_⟩
    · rw [List.pairwise_cons]
      refine ⟨?_, ihr h4⟩
      intro x hx
      simp only [List.mem_map] at hx
      obtain ⟨q, hq, rfl⟩ := hx
      exact h2 q hq
    · intro x hx y hy
      simp only [List.mem_map] at hx
      obtain ⟨q, hq, rfl⟩ := hx
      simp only [List.mem_cons, List.mem_map] at hy
      rcases hy with rfl | ⟨q2, hq2, rfl⟩
      · exact h1 q hq
      · exact (h1 q hq).trans (h2 q2 hq2)

theorem opIndexT_present (k v : Nat) (t : BST) (h : findT k t = some v) :
    opIndexT k t = (t, v, false) := by
  induction t with
  | leaf => simp [findT] at h
  | node l key val r ihl ihr =>
    by_cases hkey : key = k
    · simp only [findT, if_pos hkey, Option.some.injEq] at h
      simp only [opIndexT, if_pos hkey, h]
    · by_cases hlt : k < key
      · simp only [findT, if_neg hkey, if_pos hlt] at h
        simp only [opIndexT, if_neg hkey, if_pos hlt, ihl h]
      · simp only [findT, if_neg hkey, if_neg hlt] at h
        simp only [opIndexT, if_neg hkey, if_neg hlt, ihr h]

theorem opIndexT_absent (k : Nat) (t : BST) (h : findT k t = none) :
    opIndexT k t = ((insUpd k 0 t).1, 0, true) := by
  induction t with
  | leaf => rfl
  | node l key val r ihl ihr =>
    by_cases hkey : key = k
    · simp [findT, if_pos hkey] at h
    · by_cases hlt : k < key
      · simp only [findT, if_neg hkey, if_pos hlt] at h
        simp only [opIndexT, insUpd, if_neg hkey, if_pos hlt, ihl h]
      · simp only [findT, if_neg hkey, if_neg hlt] at h
        simp only [opIndexT, insUpd, if_neg hkey, if_neg hlt, ihr h]

theorem removeT_not_found (k : Nat) (t : BST) (h : findT k t = none) :
    removeT k t = .error .iteratorOutOfRange := by
  induction t with
  | leaf => rfl
  | node l key val r ihl ihr =>
    by_cases hkey : key = k
    · simp [findT, if_pos hkey] at h
    · by_cases hlt : k < key
      · simp only [findT, if_neg hkey, if_pos hlt] at h
        simp only [removeT, if_neg hkey, if_pos hlt, ihl h]
      · simp only [findT, if_neg hkey, if_neg hlt] at h
        simp only [removeT, if_neg hkey, if_neg hlt, ihr h]

theorem getB_set_self (bs : List (List (Nat × Nat))) (i : Nat)
    (x : List (Nat × Nat)) (h : i < bs.length) : getB (bs.set i x) i = x := by
  unfold getB
  rw [List.getD_eq_getElem _ _ (by simpa using h)]
  simp

theorem getB_set_ne (bs : List (List (Nat × Nat))) (i j : Nat)
    (x : List (Nat × Nat)) (h : i ≠ j) : getB (bs.set i x) j = getB bs j := by
  unfold getB
  rcases Nat.lt_or_ge j bs.length with hj | hj
  · rw [List.getD_eq_getElem (bs.set i x) _ (by simpa using hj),
      List.getD_eq_getElem bs _ hj]
    exact List.getElem_set_ne h _
  · rw [List.getD_eq_default (bs.set i x) _ (by simpa using hj),
      List.getD_eq_default bs _ hj]

theorem getB_empty (b : Nat) : getB emptyBuckets b = [] := by
  unfold getB emptyBuckets
  rcases Nat.lt_or_ge b 11 with hb | hb
  · rw [List.getD_eq_getElem _ _ (by simpa using hb), List.getElem_replicate]
  · rw [List.getD_eq_default _ _ (by simpa using hb)]

theorem bucketFind_setValue_ne (l : List (Nat × Nat)) (k0 v k : Nat)
    (h : k ≠ k0) : bucketFind (setValue l k0 v) k = bucketFind l k := by
  induction l with
  | nil => rfl
  | cons q l ih =>
    obtain ⟨q1, q2⟩ := q
    simp only [setValue]
    by_cases hq : q1 = k0
    · rw [if_pos (by simpa using hq)]
      unfold bucketFind
      rw [List.find?_cons_of_neg _ (by simp only [beq_iff_eq]; omega),
          List.find?_cons_of_neg _ (by simp only [beq_iff_eq]; omega)]
    · rw [if_neg (by simpa using hq)]
      unfold bucketFind
      by_cases hqk : q1 = k
      · rw [List.find?_cons_of_pos _ (by simpa using hqk),
            List.find?_cons_of_pos _ (by simpa using hqk)]
      · rw [List.find?_cons_of_neg _ (by simpa using hqk),
            List.find?_cons_of_neg _ (by simpa using hqk)]
        exact ih

theorem hFindVal_none_iff (m : HashMapS) (k : Nat) :
    hFindVal m k = none ↔ bucketFind (getB m.buckets (k % 11)) k = none := by
  unfold hFindVal
  cases bucketFind (getB m.buckets (k % 11)) k <;> simp

/-- Inserting a fresh pair leaves the lookup of every other key
unchanged (needed to propagate freshness along a build). -/
theorem hFindVal_insert_ne (m : HashMapS) (p : Nat × Nat) (k : Nat)
    (hk : k ≠ p.1) (hlen : m.buckets.length = 11) :
    hFindVal (hInsertPair m p) k = hFindVal m k := by
  by_cases hb : k % 11 = p.1 % 11
  · cases hfound : bucketFind (getB m.buckets (p.1 % 11)) p.1 with
    | none =>
      unfold hFindVal
      simp only [hInsertPair, hfound]
      rw [hb, getB_set_self _ _ _ (by omega)]
      unfold bucketFind
      rw [List.find?_append]
      have h1 : List.find? (fun q => q.1 == k) [p] = none := by
        rw [List.find?_cons_of_neg _ (by simp only [beq_iff_eq]; omega)]
        rfl
      rw [h1, Option.or_none]
    | some q =>
      unfold hFindVal
      simp only [hInsertPair, hfound]
      rw [hb, getB_set_self _ _ _ (by omega),
        bucketFind_setValue_ne _ _ _ _ hk]
  · cases hfound : bucketFind (getB m.buckets (p.1 % 11)) p.1 with
    | none =>
      unfold hFindVal
      simp only [hInsertPair, hfound]
      rw [getB_set_ne _ _ _ _ (fun hh => hb hh.symm)]
    | some q =>
      unfold hFindVal
      simp only [hInsertPair, hfound]
      rw [getB_set_ne _ _ _ _ (fun hh => hb hh.symm)]

theorem hlen_insert (m : HashMapS) (p : Nat × Nat) :
    (hInsertPair m p).buckets.length = m.buckets.length := by
  cases hfound : bucketFind (getB m.buckets (p.1 % 11)) p.1 <;>
    simp [hInsertPair, hfound]

theorem hlen_foldl (ps : List (Nat × Nat)) (m : HashMapS) :
    (ps.foldl hInsertPair m).buckets.length = m.buckets.length := by
  induction ps generalizing m with
  | nil => rfl
  | cons p ps ih => rw [List.foldl_cons, ih, hlen_insert]

theorem hsize_foldl (ps : List (Nat × Nat)) (m : HashMapS)
    (hnd : (ps.map Prod.fst).Nodup)
    (hfresh : ∀ x ∈ ps.map Prod.fst, hFindVal m x = none)
    (hlen : m.buckets.length = 11) :
    (ps.foldl hInsertPair m).size = m.size + ps.length := by
  induction ps generalizing m with
  | nil => rfl
  | cons p ps ih =>
    simp only [List.map_cons, List.nodup_cons] at hnd
    rw [List.foldl_cons]
    have hfr : bucketFind (getB m.buckets (p.1 % 11)) p.1 = none :=
      (hFindVal_none_iff m p.1).mp (hfresh p.1 (by simp))
    have hstep : hInsertPair m p = ⟨m.buckets.set (p.1 % 11)
        (getB m.buckets (p.1 % 11) ++ [p]), m.size + 1⟩ := by
      simp only [hInsertPair, hfr]
    have hfresh2 : ∀ x ∈ ps.map Prod.fst, hFindVal (hInsertPair m p) x = none := by
      intro x hx
      rw [hFindVal_insert_ne m p x (by rintro rfl; exact hnd.1 hx) hlen]
      exact hfresh x (by simp [hx])
    rw [ih _ hnd.2 hfresh2 (by rw [hlen_insert, hlen]), hstep]
    simp [List.length_cons]
    omega

/-- After building from fresh, distinct keys, bucket `b` holds exactly
the pairs that hash to `b`, in insertion order. -/
theorem getB_foldl (ps : List (Nat × Nat)) (m : HashMapS)
    (hnd : (ps.map Prod.fst).Nodup)
    (hfresh : ∀ x ∈ ps.map Prod.fst, hFindVal m x = none)
    (hlen : m.buckets.length = 11) (b : Nat) (hb : b < 11) :
    getB (ps.foldl hInsertPair m).buckets b =
      getB m.buckets b ++ ps.filter (fun p => p.1 % 11 == b) := by
  induction ps generalizing m with
  | nil => simp
  | cons p ps ih =>
    simp only [List.map_cons, List.nodup_cons] at hnd
    rw [List.foldl_cons]
    have hfr : bucketFind (getB m.buckets (p.1 % 11)) p.1 = none :=
      (hFindVal_none_iff m p.1).mp (hfresh p.1 (by simp))
    have hfresh2 : ∀ x ∈ ps.map Prod.fst, hFindVal (hInsertPair m p) x = none := by
      intro x hx
      rw [hFindVal_insert_ne m p x (by rintro rfl; exact hnd.1 hx) hlen]
      exact hfresh x (by simp [hx])
    rw [ih _ hnd.2 hfresh2 (by rw [hlen_insert, hlen])]
    have hstep : (hInsertPair m p).buckets = m.buckets.set (p.1 % 11)
        (getB m.buckets (p.1 % 11) ++ [p]) := by
      simp only [hInsertPair, hfr]
    rw [hstep]
    by_cases hbp : p.1 % 11 = b
    · rw [← hbp, getB_set_self _ _ _ (by omega)]
      rw [List.filter_cons_of_pos (by simp [hbp])]
      simp
    · rw [getB_set_ne _ _ _ _ hbp]
      rw [List.filter_cons_of_neg (by simp [hbp])]

theorem buckets_eq_of_getB (bs1 bs2 : List (List (Nat × Nat)))
    (h1 : bs1.length = 11) (h2 : bs2.length = 11)
    (h : ∀ b, b < 11 → getB bs1 b = getB bs2 b) : bs1 = bs2 := by
  apply List.ext_getElem (by omega)
  intro i hi1 hi2
  have hgb := h i (by omega)
  rwa [getB, getB, List.getD_eq_getElem _ _ hi1, List.getD_eq_getElem _ _ hi2] at hgb

theorem hEq_refl (m : HashMapS) : hEq m m = true := by
  simp [hEq]

theorem hEq_symm (m1 m2 : HashMapS) : hEq m1 m2 = hEq m2 m1 := by
  unfold hEq
  by_cases h : m1.size = m2.size
  · rw [if_neg (by omega), if_neg (by omega)]
    simp [eq_comm]
  · rw [if_pos h, if_pos (by omega)]

/-- Claim C1 (code bug, the discarded-subtree defect): in the tree
built by inserting keys 2, 1, 3, key 1 is retrievable; after
`remove(2)` — the root, a node with two children — the code promotes
the right child and discards the left subtree, so `valueOf(1)` now
signals an error instead of returning 10.  The claim requires every
other previously inserted key to stay retrievable. -/
theorem c1_remove_drops_subtree :
    tValueOf (buildT [(2,20),(1,10),(3,30)]) 1 = .ok 10 ∧
    tRemoveKey (buildT [(2,20),(1,10),(3,30)]) 2 =
      .ok ⟨.node .leaf 3 30 .leaf, 2⟩ ∧
    tValueOf ⟨.node .leaf 3 30 .leaf, 2⟩ 1 = .error .iteratorOutOfRange := by
  refine ⟨rfl, rfl, rfl⟩

/-- Claim C3 (code bug): `TreeMap::operator==` is not total.  Comparing
the maps {(1,0)} and {(2,0)} — equal sizes, different key sets — calls
`valueOf(2)` on a map without key 2, which dereferences the end
iterator and throws, instead of returning `false`. -/
theorem c3_tree_equality_throws :
    tEquals (buildT [(1,0)]) (buildT [(2,0)]) = .error .iteratorOutOfRange := by
  rfl

/-- Claim C4 (code bug): neither move constructor resets the source's
`size` member.  Moving from a one-element map leaves a source whose
structure is empty (`begin() == end()`) but whose `size()` still
returns 1, where the claim demands 0; the destination does receive the
full content. -/
theorem c4_move_leaves_stale_size :
    (tMoveCtor (buildT [(1,10)])).2.size = 1 ∧
    beginZ (tMoveCtor (buildT [(1,10)])).2.root = none ∧
    (tMoveCtor (buildT [(1,10)])).1 = buildT [(1,10)] ∧
    (hMoveCtor (buildH [(1,10)])).2.size = 1 ∧
    (hMoveCtor (buildH [(1,10)])).2.buckets = emptyBuckets ∧
    (hMoveCtor (buildH [(1,10)])).1 = buildH [(1,10)] := by
  refine ⟨rfl, rfl, rfl, rfl, rfl, rfl⟩

/-- Claim C5 (code bug): decrementing `begin()` of the non-empty map
{(0,5)} does not signal `IteratorOutOfRange`.  `begin()` sits at the
first entry of bucket 0; `operator--` sees `iter == bucket.begin()`,
finds the bucket non-empty, and silently repositions the iterator to
that bucket's last entry — here the very same position — instead of
throwing. -/
theorem c5_decrement_begin_no_error :
    hBegin (buildH [(0,5)]) = ⟨0, 0⟩ ∧
    hDecr (buildH [(0,5)]) ⟨0, 0⟩ = .ok ⟨0, 0⟩ ∧
    hIsEnd (buildH [(0,5)]) ⟨0, 0⟩ = false := by
  refine ⟨rfl, rfl, rfl⟩

/-- Claim C7 (code bug): `HashMap::operator=(const HashMap&)` resets
`size` to 0 but never clears the buckets.  Assigning {(1,20)} onto
{(1,10)} finds the stale entry for key 1, overwrites it without
incrementing `size`, and the target ends with `size == 0`, comparing
unequal to the source. -/
theorem c7_copy_assign_not_equal :
    (hCopyAssign false (buildH [(1,10)]) (buildH [(1,20)])).size = 0 ∧
    (buildH [(1,20)]).size = 1 ∧
    hEq (hCopyAssign false (buildH [(1,10)]) (buildH [(1,20)])) (buildH [(1,20)]) = false := by
  refine ⟨rfl, rfl, rfl⟩

/-- Claim C2 counterexample: on the one-entry map {(1,10)},
`TreeMap::valueOf(2)` and `TreeMap::remove(2)` signal the
iterator-range error ("Iterator out of range", from the end iterator
produced by `find`), not the distinct `KeyNotFound` signal the claim
requires. -/
theorem c2_counterexample :
    tValueOf (buildT [(1,10)]) 2 = .error .iteratorOutOfRange ∧
    tRemoveKey (buildT [(1,10)]) 2 = .error .iteratorOutOfRange ∧
    Err.iteratorOutOfRange ≠ Err.keyNotFound := by
  refine ⟨rfl, rfl, by decide⟩

/-- Claim C6 counterexample: the same two pairs — keys 0 and 11, which
collide in bucket 0 — inserted in the two possible orders produce
`HashMap`s whose shared bucket chains the entries in different orders,
and the element-wise `operator==` reports them unequal. -/
theorem c6_counterexample :
    hEq (buildH [(0,1),(11,2)]) (buildH [(11,2),(0,1)]) = false := by
  decide

/-- Two `HashMap`s built from the same pairs (distinct keys) whose
buckets receive their colliding keys in the same relative order compare
equal under `HashMap::operator==`. -/
theorem hEq_build (ps qs : List (Nat × Nat))
    (hnd : (ps.map Prod.fst).Nodup) (hperm : ps.Perm qs)
    (hfil : ∀ b, b < 11 → ps.filter (fun p => p.1 % 11 == b) =
      qs.filter (fun p => p.1 % 11 == b)) :
    hEq (buildH ps) (buildH qs) = true := by
  have hndq : (qs.map Prod.fst).Nodup := (hperm.map Prod.fst).nodup_iff.mp hnd
  have hfreshp : ∀ x ∈ ps.map Prod.fst, hFindVal ⟨emptyBuckets, 0⟩ x = none := by
    intro x _
    simp [hFindVal, getB_empty, bucketFind]
  have hfreshq : ∀ x ∈ qs.map Prod.fst, hFindVal ⟨emptyBuckets, 0⟩ x = none := by
    intro x _
    simp [hFindVal, getB_empty, bucketFind]
  have hlen : (⟨emptyBuckets, 0⟩ : HashMapS).buckets.length = 11 := by
    simp [emptyBuckets]
  have hs1 : (buildH ps).size = ps.length := by
    simpa [buildH] using hsize_foldl ps ⟨emptyBuckets, 0⟩ hnd hfreshp hlen
  have hs2 : (buildH qs).size = qs.length := by
    simpa [buildH] using hsize_foldl qs ⟨emptyBuckets, 0⟩ hndq hfreshq hlen
  have hbuckets : (buildH ps).buckets = (buildH qs).buckets := by
    apply buckets_eq_of_getB
    · simpa [buildH, hlen_foldl] using hlen
    · simpa [buildH, hlen_foldl] using hlen
    · intro b hb
      have h1 := getB_foldl ps ⟨emptyBuckets, 0⟩ hnd hfreshp hlen b hb
      have h2 := getB_foldl qs ⟨emptyBuckets, 0⟩ hndq hfreshq hlen b hb
      show getB (ps.foldl hInsertPair ⟨emptyBuckets, 0⟩).buckets b =
        getB (qs.foldl hInsertPair ⟨emptyBuckets, 0⟩).buckets b
      rw [h1, h2, getB_empty, hfil b hb]
  unfold hEq
  rw [if_neg (by rw [hs1, hs2, hperm.length_eq]; simp), hbuckets]
  simp

/-- Claim C2 (amended): on a missing key, `HashMap::valueOf` and
`HashMap::remove(key)` signal `KeyNotFound`, while `TreeMap::valueOf`
and `TreeMap::remove(key)` signal `IteratorOutOfRange` (they
dereference / erase the end iterator produced by `find`); in every case
the call fails before mutating anything, leaving the map unchanged. -/
theorem c2_missing_key_errors :
    ∀ (tm : TreeMapS) (hm : HashMapS) (k : Nat),
      findT k tm.root = none → hFindVal hm k = none →
      tValueOf tm k = .error .iteratorOutOfRange ∧
      tRemoveKey tm k = .error .iteratorOutOfRange ∧
      hValueOf hm k = .error .keyNotFound ∧
      hRemoveKey hm k = .error .keyNotFound := by
  intro tm hm k ht hh
  refine ⟨?_, ?_, ?_, ?_⟩
  · simp only [tValueOf, ht]
  · simp only [tRemoveKey, removeT_not_found k tm.root ht]
  · simp only [hValueOf, hh]
  · simp only [hRemoveKey, (hFindVal_none_iff hm k).mp hh]

theorem c2_missing_key_errors_witness :
    tValueOf ⟨.leaf, 0⟩ 7 = .error .iteratorOutOfRange ∧
    tRemoveKey ⟨.leaf, 0⟩ 7 = .error .iteratorOutOfRange ∧
    hValueOf ⟨emptyBuckets, 0⟩ 7 = .error .keyNotFound ∧
    hRemoveKey ⟨emptyBuckets, 0⟩ 7 = .error .keyNotFound :=
  c2_missing_key_errors ⟨.leaf, 0⟩ ⟨emptyBuckets, 0⟩ 7 rfl rfl

/-- Claim C6 (amended): two `TreeMap`s built from the same pairs (with
pairwise-distinct keys) in any two insertion orders compare equal, and
`TreeMap` equality on such maps is reflexive and symmetric; `HashMap`
equality is reflexive and symmetric, and two `HashMap`s built from the
same pairs compare equal provided each bucket receives its keys in the
same relative order in both insertion sequences (with colliding keys in
different relative orders the element-wise bucket comparison can report
inequality, see the counterexample). -/
theorem c6_equality_amended :
    ∀ ps qs : List (Nat × Nat), (ps.map Prod.fst).Nodup → ps.Perm qs →
      tEquals (buildT ps) (buildT qs) = .ok true ∧
      tEquals (buildT qs) (buildT ps) = .ok true ∧
      tEquals (buildT ps) (buildT ps) = .ok true ∧
      hEq (buildH ps) (buildH ps) = true ∧
      hEq (buildH ps) (buildH qs) = hEq (buildH qs) (buildH ps) ∧
      ((∀ b, b < 11 → ps.filter (fun p => p.1 % 11 == b) =
          qs.filter (fun p => p.1 % 11 == b)) →
        hEq (buildH ps) (buildH qs) = true) := by
  intro ps qs hnd hperm
  have hndq := (hperm.map Prod.fst).nodup_iff.mp hnd
  exact ⟨tEquals_perm ps qs hnd hperm, tEquals_perm qs ps hndq hperm.symm,
    tEquals_perm ps ps hnd List.Perm.rfl, hEq_refl _, hEq_symm _ _,
    fun hfil => hEq_build ps qs hnd hperm hfil⟩

theorem c6_equality_amended_witness :
    tEquals (buildT [(1,10),(2,20)]) (buildT [(2,20),(1,10)]) = .ok true ∧
    hEq (buildH [(1,10),(2,20)]) (buildH [(2,20),(1,10)]) = true := by
  have h := c6_equality_amended [(1,10),(2,20)] [(2,20),(1,10)]
    (by decide) (List.Perm.swap (2,20) (1,10) [])
  exact ⟨h.1, h.2.2.2.2.2 (by decide)⟩

/-- Claim C8 (confirmed): for every sequence of insertions, forward
iteration of the resulting `TreeMap` from `begin()` to `end()` yields
strictly increasing keys; in particular inserting keys 5, 3, 8, 1, 4
yields the key sequence 1, 3, 4, 5, 8. -/
theorem c8_iteration_sorted :
    (∀ ps : List (Nat × Nat),
      ((iterateMap (buildT ps)).map Prod.fst).Pairwise (· < ·)) ∧
    (iterateMap (buildT [(5,0),(3,0),(8,0),(1,0),(4,0)])).map Prod.fst =
      [1, 3, 4, 5, 8] := by
  constructor
  · intro ps
    rw [iterateMap_eq_inorder]
    exact pairwise_inorder _ (ordered_foldl ps ⟨.leaf, 0⟩ trivial)
  · decide

/-- Claim C9 (confirmed): for both maps, `operator[]` is total (it
returns a state and a value, never an error); on an absent key it
creates the entry with the default value 0 and increments the size
counter by one, returning the default; on a present key it leaves the
map unchanged and returns the stored value. -/
theorem c9_index_or_insert :
    (∀ (m : TreeMapS) (k : Nat),
      (findT k m.root = none →
        m.index k = (⟨(insUpd k 0 m.root).1, m.size + 1⟩, 0) ∧
        findT k (m.index k).1.root = some 0) ∧
      (∀ v, findT k m.root = some v → m.index k = (m, v))) ∧
    (∀ (m : HashMapS) (k : Nat), m.buckets.length = 11 →
      (hFindVal m k = none →
        hIndex m k = (⟨m.buckets.set (k % 11)
          (getB m.buckets (k % 11) ++ [(k, 0)]), m.size + 1⟩, 0) ∧
        hFindVal (hIndex m k).1 k = some 0) ∧
      (∀ v, hFindVal m k = some v → hIndex m k = (m, v))) := by
  constructor
  · intro m k
    constructor
    · intro h
      have habs := opIndexT_absent k m.root h
      constructor
      · simp [TreeMapS.index, habs]
      · simp only [TreeMapS.index, habs, findT_insUpd]
        simp
    · intro v h
      have hpres := opIndexT_present k v m.root h
      simp [TreeMapS.index, hpres]
  · intro m k hlen
    constructor
    · intro h
      have hfound := (hFindVal_none_iff m k).mp h
      constructor
      · simp only [hIndex, hfound]
      · simp only [hIndex, hfound]
        unfold hFindVal
        rw [getB_set_self _ _ _ (by omega)]
        unfold bucketFind
        have hfound2 : List.find? (fun q => q.1 == k)
            (getB m.buckets (k % 11)) = none := hfound
        rw [List.find?_append, hfound2,
          List.find?_cons_of_pos _ (by simp)]
        rfl
    · intro v hv
      unfold hFindVal at hv
      obtain ⟨q, hq, hq2⟩ := Option.map_eq_some'.mp hv
      simp only [hIndex, hq]
      rw [hq2]

theorem c9_index_or_insert_witness :
    findT 3 ((TreeMapS.index ⟨.leaf, 0⟩ 3).1.root) = some 0 ∧
    hFindVal (hIndex ⟨emptyBuckets, 0⟩ 3).1 3 = some 0 :=
  ⟨((c9_index_or_insert.1 ⟨.leaf, 0⟩ 3).1 rfl).2,
   ((c9_index_or_insert.2 ⟨emptyBuckets, 0⟩ 3 (by decide)).1 rfl).2⟩

/-- Claim C10 (confirmed): all four assignment operators start with the
`this == &other` self-check and return the object unchanged, so
self-assignment (copy or move, either container) leaves the map with
the same size and content. -/
theorem c10_self_assignment :
    ∀ (tm : TreeMapS) (hm : HashMapS),
      tCopyAssign true tm tm = tm ∧
      tMoveAssign true tm tm = (tm, tm) ∧
      hCopyAssign true hm hm = hm ∧
      hMoveAssign true hm hm = (hm, hm) := by
  intro tm hm
  refine ⟨rfl, rfl, rfl, rfl⟩
